import Mathlib

/-!
Verification of the bookmark record model and file store
(`src/bookmark/models.py`).

Python strings are modelled as lists of Unicode code points (`List Nat`).
The character-level primitives (`str.strip`, `str.lower`, `str.title`,
`str.split`, `str.join`) are translated from CPython's behaviour on the
ASCII range, which is the range all claims and examples live in.
-/

/-- Code point of the pipe delimiter character. -/
def pipeCh : Nat := Char.toNat '|'

/-- Code point of the comma character. -/
def commaCh : Nat := Char.toNat ','

/-- Code point of the newline character. -/
def nlCh : Nat := Char.toNat '\n'

/-- Converts a Lean string literal to the code-point list model of a
Python string. -/
def pyStr (s : String) : List Nat := s.data.map Char.toNat

/-- Whitespace predicate of Python's `str.strip` (ASCII range:
space, tab, newline, vertical tab, form feed, carriage return). -/
def pyIsSpace (c : Nat) : Bool :=
  c = 32 || c = 9 || c = 10 || c = 11 || c = 12 || c = 13

/-- Python's `str.strip`: drop leading and trailing whitespace. -/
def pyStrip (s : List Nat) : List Nat :=
  ((s.dropWhile pyIsSpace).reverse.dropWhile pyIsSpace).reverse

/-- Case map of Python's `str.lower` on a single code point (ASCII). -/
def pyToLower (c : Nat) : Nat :=
  if 65 ≤ c ∧ c ≤ 90 then c + 32 else c

/-- Case map of Python's `str.upper` on a single code point (ASCII);
on ASCII it coincides with the title-case map used by `str.title`. -/
def pyToUpper (c : Nat) : Nat :=
  if 97 ≤ c ∧ c ≤ 122 then c - 32 else c

/-- Cased-character predicate used by Python's `str.title` (ASCII
letters). -/
def pyIsCased (c : Nat) : Bool :=
  (65 ≤ c && c ≤ 90) || (97 ≤ c && c ≤ 122)

/-- Python's `str.lower` over a whole string. -/
def pyLower (s : List Nat) : List Nat := s.map pyToLower

/-- Worker of Python's `str.title`: the Boolean records whether the
previous character was cased; an uncased predecessor makes the current
character title-cased, a cased one makes it lower-cased. -/
def pyTitleAux : Bool → List Nat → List Nat
  | _, [] => []
  | prevCased, c :: cs =>
      (if prevCased then pyToLower c else pyToUpper c) :: pyTitleAux (pyIsCased c) cs

/-- Python's `str.title`. -/
def pyTitle (s : List Nat) : List Nat := pyTitleAux false s

/-- Python's `s.split(sep)` for a one-character separator: splitting the
empty string yields `[[]]`, and every separator occurrence starts a new
part. -/
def pySplit (sep : Nat) : List Nat → List (List Nat)
  | [] => [[]]
  | c :: cs =>
      if c = sep then [] :: pySplit sep cs
      else ((c :: (pySplit sep cs).headI) :: (pySplit sep cs).tail)

/-- Python's `sep.join` for a one-character separator. -/
def pyJoin (sep : Nat) : List (List Nat) → List Nat
  | [] => []
  | [t] => t
  | t :: t' :: ts => t ++ sep :: pyJoin sep (t' :: ts)

/-- Worker of `dedupFirst` carrying the set of elements already kept. -/
def dedupFirstAux (seen : List (List Nat)) : List (List Nat) → List (List Nat)
  | [] => []
  | t :: ts =>
      if t ∈ seen then dedupFirstAux seen ts
      else t :: dedupFirstAux (t :: seen) ts

/-- Removes duplicates keeping the first occurrence of each element, as
`dict.fromkeys` does in `_normalize_tags`. -/
def dedupFirst (l : List (List Nat)) : List (List Nat) := dedupFirstAux [] l

/-- Computable lexicographic comparison of code-point strings, the order
Python's `list.sort` uses on strings. -/
def strLe : List Nat → List Nat → Bool
  | [], _ => true
  | _ :: _, [] => false
  | a :: as, b :: bs => if a < b then true else if b < a then false else strLe as bs

/-- Propositional form of `strLe`. -/
def StrLe (a b : List Nat) : Prop := strLe a b = true

instance : DecidableRel StrLe := fun a b => by unfold StrLe; infer_instance

/-- Tag pipeline of `Bookmark._normalize_tags` (models.py lines 54-59):
split on comma, strip and lowercase each tag, drop empty tags, delete
later duplicates, sort. -/
def tagPipeline (tags : List Nat) : List (List Nat) :=
  List.insertionSort StrLe
    (dedupFirst
      (((pySplit commaCh tags).map (fun t => pyLower (pyStrip t))).filter
        (fun t => t ≠ [])))

/-- Translation of `Bookmark._normalize_tags` (models.py lines 41-61):
an all-whitespace input short-circuits to the empty string, otherwise
the tag pipeline runs and the result is comma-joined. -/
def normalizeTags (tags : List Nat) : List Nat :=
  if pyStrip tags = [] then [] else pyJoin commaCh (tagPipeline tags)

/-- Translation of `Bookmark._normalize_name` (models.py lines 25-39):
a name containing a pipe raises `ValueError` (modelled as `none`),
otherwise the title-cased name is returned. -/
def normalizeName (name : List Nat) : Option (List Nat) :=
  if pipeCh ∈ name then none else some (pyTitle name)

/-- A bookmark record: the four string fields of the `Bookmark`
dataclass. -/
structure Bookmark where
  name : List Nat
  url : List Nat
  description : List Nat
  tags : List Nat
deriving DecidableEq, Repr

/-- Construction of a `Bookmark` through `__post_init__` (models.py
lines 20-23): name validation and title-casing, tag normalization;
`none` models the `ValueError` raised on a pipe in the name. `url` and
`description` are stored untouched. -/
def Bookmark.construct (name url description tags : List Nat) : Option Bookmark :=
  match normalizeName name with
  | none => none
  | some n => some { name := n, url := url, description := description, tags := normalizeTags tags }

/-- Translation of `Bookmark.to_line` (models.py lines 63-69):
`f"{name}|{url}|{description}|{tags}"`. -/
def Bookmark.to_line (b : Bookmark) : List Nat :=
  b.name ++ (pipeCh :: (b.url ++ (pipeCh :: (b.description ++ (pipeCh :: b.tags)))))

/-- Translation of `Bookmark.from_line` (models.py lines 71-91): strip
the line, split on pipes, fail unless exactly four parts result, then
feed the parts to the normalizing constructor. -/
def Bookmark.from_line (line : List Nat) : Option Bookmark :=
  match pySplit pipeCh (pyStrip line) with
  | [name, url, description, tags] => Bookmark.construct name url description tags
  | _ => none

/-- Field dictionary of `Bookmark.matches_display_format` (models.py
lines 102-107). -/
def Bookmark.fieldMap (b : Bookmark) : List (List Nat × List Nat) :=
  [(pyStr "name", b.name), (pyStr "url", b.url),
   (pyStr "description", b.description), (pyStr "tags", b.tags)]

/-- Translation of `Bookmark.matches_display_format` (models.py lines
93-116): each requested field name is looked up in the field dictionary,
unknown names contribute an empty string, and the values are
pipe-joined. -/
def Bookmark.matches_display_format (b : Bookmark) (fields : List (List Nat)) : List Nat :=
  pyJoin pipeCh (fields.map (fun f => ((b.fieldMap.lookup f).getD [])))

/-- Translation of `BookmarkManager.read_bookmarks` (models.py lines
134-173) over a file state (`none` models a missing file): a missing
file yields `[]`; otherwise each line is stripped, blank lines are
skipped, and lines `from_line` rejects are skipped (the warning print is
diagnostic-only and not part of the state). -/
def read_bookmarks (file : Option (List Nat)) : List Bookmark :=
  match file with
  | none => []
  | some content =>
      (pySplit nlCh content).filterMap (fun raw =>
        let line := pyStrip raw
        if line = [] then none else Bookmark.from_line line)

/-- Translation of `BookmarkManager.add_bookmark` (models.py lines
175-197): opening in append mode creates a missing file, then the
serialized line plus a newline is appended. -/
def add_bookmark (file : Option (List Nat)) (b : Bookmark) : List Nat :=
  (file.getD []) ++ b.to_line ++ [nlCh]

/-- Last element of a code-point string, with the junk value `0` (a
non-whitespace code point) on the empty string. -/
def lastI (s : List Nat) : Nat := s.reverse.headI

/-- File content made of the given newline-terminated lines, the shape
`add_bookmark` leaves the file in. -/
def joinLines (ls : List (List Nat)) : List Nat :=
  ls.foldr (fun l acc => l ++ (nlCh :: acc)) []

/-- Reference tag normalization written from the specification text:
split on comma, strip whitespace from each tag, lowercase each tag, drop
empty tags, deduplicate, sort lexicographically, rejoin with commas. -/
def specNormalizeTags (tags : List Nat) : List Nat :=
  pyJoin commaCh
    (List.insertionSort StrLe
      (dedupFirst
        (((pySplit commaCh tags).map (fun t => pyLower (pyStrip t))).filter
          (fun t => t ≠ []))))

/-- Reference field selection written from the specification text: each
name in the set of recognized field names maps to the record's field,
every other string maps to the empty string. -/
def specFieldValue (b : Bookmark) (f : List Nat) : List Nat :=
  if f = pyStr "name" then b.name
  else if f = pyStr "url" then b.url
  else if f = pyStr "description" then b.description
  else if f = pyStr "tags" then b.tags
  else []

theorem pipeCh_eq : pipeCh = 124 := rfl

theorem commaCh_eq : commaCh = 44 := rfl

theorem nlCh_eq : nlCh = 10 := rfl

theorem pyIsSpace_pipeCh : pyIsSpace pipeCh = false := rfl

theorem pyIsSpace_zero : pyIsSpace 0 = false := rfl

theorem pyIsSpace_commaCh_false : pyIsSpace commaCh = false := rfl

theorem pyIsSpace_pyToLower (c : Nat) : pyIsSpace (pyToLower c) = pyIsSpace c := by
  unfold pyToLower pyIsSpace
  by_cases h : 65 ≤ c ∧ c ≤ 90
  · rw [if_pos h, Bool.eq_iff_iff]
    simp only [Bool.or_eq_true, decide_eq_true_eq]
    omega
  · rw [if_neg h]

theorem pyIsSpace_pyToUpper (c : Nat) : pyIsSpace (pyToUpper c) = pyIsSpace c := by
  unfold pyToUpper pyIsSpace
  by_cases h : 97 ≤ c ∧ c ≤ 122
  · rw [if_pos h, Bool.eq_iff_iff]
    simp only [Bool.or_eq_true, decide_eq_true_eq]
    omega
  · rw [if_neg h]

theorem pyToLower_pyToLower (c : Nat) : pyToLower (pyToLower c) = pyToLower c := by
  unfold pyToLower
  by_cases h : 65 ≤ c ∧ c ≤ 90
  · rw [if_pos h, if_neg (by omega)]
  · rw [if_neg h, if_neg h]

theorem pyToUpper_pyToUpper (c : Nat) : pyToUpper (pyToUpper c) = pyToUpper c := by
  unfold pyToUpper
  by_cases h : 97 ≤ c ∧ c ≤ 122
  · rw [if_pos h, if_neg (by omega)]
  · rw [if_neg h, if_neg h]

theorem pyIsCased_pyToLower (c : Nat) : pyIsCased (pyToLower c) = pyIsCased c := by
  unfold pyToLower pyIsCased
  by_cases h : 65 ≤ c ∧ c ≤ 90
  · rw [if_pos h, Bool.eq_iff_iff]
    simp only [Bool.or_eq_true, Bool.and_eq_true, decide_eq_true_eq]
    omega
  · rw [if_neg h]

theorem pyIsCased_pyToUpper (c : Nat) : pyIsCased (pyToUpper c) = pyIsCased c := by
  unfold pyToUpper pyIsCased
  by_cases h : 97 ≤ c ∧ c ≤ 122
  · rw [if_pos h, Bool.eq_iff_iff]
    simp only [Bool.or_eq_true, Bool.and_eq_true, decide_eq_true_eq]
    omega
  · rw [if_neg h]

theorem pyToLower_eq_pipeCh {c : Nat} (h : pyToLower c = pipeCh) : c = pipeCh := by
  unfold pyToLower at h
  rw [pipeCh_eq] at *
  split at h <;> omega

theorem pyToUpper_eq_pipeCh {c : Nat} (h : pyToUpper c = pipeCh) : c = pipeCh := by
  unfold pyToUpper at h
  rw [pipeCh_eq] at *
  split at h <;> omega

theorem pyToLower_eq_commaCh {c : Nat} (h : pyToLower c = commaCh) : c = commaCh := by
  unfold pyToLower at h
  rw [commaCh_eq] at *
  split at h <;> omega

theorem mem_pyTitleAux {x : Nat} : ∀ {prev : Bool} {s : List Nat},
    x ∈ pyTitleAux prev s → ∃ c ∈ s, x = pyToLower c ∨ x = pyToUpper c := by
  intro prev s
  induction s generalizing prev with
  | nil => intro h; exact absurd h (by simp [pyTitleAux])
  | cons c cs ih =>
      intro h
      rw [pyTitleAux] at h
      rcases List.mem_cons.mp h with h | h
      · refine ⟨c, List.mem_cons_self c cs, ?_⟩
        split at h <;> [exact Or.inl h; exact Or.inr h]
      · obtain ⟨d, hd, hx⟩ := ih h
        exact ⟨d, List.mem_cons_of_mem c hd, hx⟩

theorem pyTitleAux_idem : ∀ (prev : Bool) (s : List Nat),
    pyTitleAux prev (pyTitleAux prev s) = pyTitleAux prev s := by
  intro prev s
  induction s generalizing prev with
  | nil => rfl
  | cons c cs ih =>
      rw [pyTitleAux, pyTitleAux]
      cases prev with
      | false =>
          simp only [Bool.false_eq_true, if_neg, ite_false]
          rw [pyToUpper_pyToUpper, pyIsCased_pyToUpper, ih]
      | true =>
          simp only [ite_true]
          rw [pyToLower_pyToLower, pyIsCased_pyToLower, ih]

theorem pyTitle_idem (s : List Nat) : pyTitle (pyTitle s) = pyTitle s :=
  pyTitleAux_idem false s

theorem pipeCh_not_mem_pyTitle {s : List Nat} (h : pipeCh ∉ s) : pipeCh ∉ pyTitle s := by
  intro hmem
  obtain ⟨c, hc, hx⟩ := mem_pyTitleAux hmem
  rcases hx with hx | hx
  · exact h ((pyToLower_eq_pipeCh hx.symm) ▸ hc)
  · exact h ((pyToUpper_eq_pipeCh hx.symm) ▸ hc)

theorem pyIsSpace_headI_pyTitle (s : List Nat) :
    pyIsSpace (pyTitle s).headI = pyIsSpace s.headI := by
  cases s with
  | nil => rfl
  | cons c cs =>
      show pyIsSpace (pyToUpper c) = pyIsSpace c
      exact pyIsSpace_pyToUpper c

theorem headI_append_ne_nil {xs : List Nat} (ys : List Nat) (h : xs ≠ []) :
    (xs ++ ys).headI = xs.headI := by
  cases xs with
  | nil => exact absurd rfl h
  | cons c cs => rfl

theorem lastI_append_ne_nil (xs : List Nat) {ys : List Nat} (h : ys ≠ []) :
    lastI (xs ++ ys) = lastI ys := by
  unfold lastI
  rw [List.reverse_append]
  exact headI_append_ne_nil _ (by simpa using h)

theorem lastI_cons_ne_nil (c : Nat) {cs : List Nat} (h : cs ≠ []) :
    lastI (c :: cs) = lastI cs := by
  have : c :: cs = [c] ++ cs := rfl
  rw [this, lastI_append_ne_nil _ h]

theorem lastI_reverse (s : List Nat) : lastI s.reverse = s.headI := by
  unfold lastI
  rw [List.reverse_reverse]

theorem dropWhile_headI_false {s : List Nat} (h : s.dropWhile pyIsSpace ≠ []) :
    pyIsSpace (s.dropWhile pyIsSpace).headI = false := by
  induction s with
  | nil => exact absurd rfl h
  | cons c cs ih =>
      rw [List.dropWhile_cons]
      by_cases hc : pyIsSpace c = true
      · rw [if_pos hc]
        rw [List.dropWhile_cons, if_pos hc] at h
        exact ih h
      · rw [if_neg hc]
        simpa using hc

theorem dropWhile_lastI {s : List Nat} (h : s.dropWhile pyIsSpace ≠ []) :
    lastI (s.dropWhile pyIsSpace) = lastI s := by
  induction s with
  | nil => exact absurd rfl h
  | cons c cs ih =>
      rw [List.dropWhile_cons]
      by_cases hc : pyIsSpace c = true
      · rw [List.dropWhile_cons, if_pos hc] at h
        have hcs : cs ≠ [] := by
          intro hnil
          rw [hnil] at h
          exact h rfl
        rw [if_pos hc, ih h, lastI_cons_ne_nil c hcs]
      · rw [if_neg hc]

theorem dropWhile_eq_self_headI {s : List Nat} (h : pyIsSpace s.headI = false) :
    s.dropWhile pyIsSpace = s := by
  cases s with
  | nil => rfl
  | cons c cs =>
      rw [List.dropWhile_cons, if_neg]
      simp only [List.headI] at h
      simp [h]

theorem dropWhile_append_all_space {ws : List Nat} (s : List Nat)
    (h : ∀ c ∈ ws, pyIsSpace c = true) :
    (ws ++ s).dropWhile pyIsSpace = s.dropWhile pyIsSpace := by
  induction ws with
  | nil => rfl
  | cons c cs ih =>
      rw [List.cons_append, List.dropWhile_cons, if_pos (h c (List.mem_cons_self c cs))]
      exact ih fun x hx => h x (List.mem_cons_of_mem c hx)

theorem dropWhile_append_ne_nil {s : List Nat} (ws : List Nat)
    (h : s.dropWhile pyIsSpace ≠ []) :
    (s ++ ws).dropWhile pyIsSpace = s.dropWhile pyIsSpace ++ ws := by
  induction s with
  | nil => exact absurd rfl h
  | cons c cs ih =>
      rw [List.cons_append, List.dropWhile_cons, List.dropWhile_cons]
      by_cases hc : pyIsSpace c = true
      · rw [if_pos hc, if_pos hc]
        rw [List.dropWhile_cons, if_pos hc] at h
        exact ih h
      · rw [if_neg hc, if_neg hc, List.cons_append]

theorem pyStrip_nil : pyStrip [] = [] := rfl

theorem pyStrip_headI {s : List Nat} (h : pyStrip s ≠ []) :
    pyIsSpace (pyStrip s).headI = false := by
  unfold pyStrip at *
  have hD2 : (s.dropWhile pyIsSpace).reverse.dropWhile pyIsSpace ≠ [] := by
    intro hnil
    rw [hnil] at h
    exact h rfl
  have hD1 : s.dropWhile pyIsSpace ≠ [] := by
    intro hnil
    rw [hnil] at hD2
    exact hD2 rfl
  show pyIsSpace (lastI ((s.dropWhile pyIsSpace).reverse.dropWhile pyIsSpace)) = false
  rw [dropWhile_lastI hD2, lastI_reverse]
  exact dropWhile_headI_false hD1

theorem pyStrip_lastI {s : List Nat} (h : pyStrip s ≠ []) :
    pyIsSpace (lastI (pyStrip s)) = false := by
  unfold pyStrip at *
  have hD2 : (s.dropWhile pyIsSpace).reverse.dropWhile pyIsSpace ≠ [] := by
    intro hnil
    rw [hnil] at h
    exact h rfl
  rw [lastI_reverse]
  exact dropWhile_headI_false hD2

theorem pyStrip_eq_self {s : List Nat} (h1 : pyIsSpace s.headI = false)
    (h2 : pyIsSpace (lastI s) = false) : pyStrip s = s := by
  unfold pyStrip
  rw [dropWhile_eq_self_headI h1]
  have : pyIsSpace s.reverse.headI = false := by
    cases s with
    | nil => exact h2
    | cons c cs =>
        have : (c :: cs).reverse.headI = lastI (c :: cs) := rfl
        rw [this]
        exact h2
  rw [dropWhile_eq_self_headI this, List.reverse_reverse]

theorem pyStrip_idem (s : List Nat) : pyStrip (pyStrip s) = pyStrip s := by
  by_cases h : pyStrip s = []
  · rw [h, pyStrip_nil]
  · exact pyStrip_eq_self (pyStrip_headI h) (pyStrip_lastI h)

theorem mem_pyStrip {x : Nat} {s : List Nat} (h : x ∈ pyStrip s) : x ∈ s := by
  unfold pyStrip at h
  rw [List.mem_reverse] at h
  have h2 := (List.dropWhile_sublist pyIsSpace).mem h
  rw [List.mem_reverse] at h2
  exact (List.dropWhile_sublist pyIsSpace).mem h2

theorem pyStrip_eq_nil_iff {s : List Nat} :
    pyStrip s = [] ↔ ∀ c ∈ s, pyIsSpace c = true := by
  constructor
  · intro h c hc
    unfold pyStrip at h
    rw [List.reverse_eq_nil_iff, List.dropWhile_eq_nil_iff] at h
    rcases List.mem_append.mp
        ((List.takeWhile_append_dropWhile pyIsSpace s) ▸ hc) with hx | hx
    · exact List.mem_takeWhile_imp hx
    · exact h _ (List.mem_reverse.mpr hx)
  · intro h
    unfold pyStrip
    have hD1 : s.dropWhile pyIsSpace = [] := List.dropWhile_eq_nil_iff.mpr h
    rw [hD1]
    rfl

theorem pyStrip_append_space {ws : List Nat} (s : List Nat)
    (h : ∀ c ∈ ws, pyIsSpace c = true) : pyStrip (ws ++ s) = pyStrip s := by
  unfold pyStrip
  rw [dropWhile_append_all_space s h]

theorem pyStrip_space_append {ws : List Nat} (s : List Nat)
    (h : ∀ c ∈ ws, pyIsSpace c = true) : pyStrip (s ++ ws) = pyStrip s := by
  by_cases hD1 : s.dropWhile pyIsSpace = []
  · have hs : ∀ c ∈ s, pyIsSpace c = true := List.dropWhile_eq_nil_iff.mp hD1
    have h1 : pyStrip s = [] := pyStrip_eq_nil_iff.mpr hs
    have h2 : pyStrip (s ++ ws) = [] := by
      refine pyStrip_eq_nil_iff.mpr fun c hc => ?_
      rcases List.mem_append.mp hc with hx | hx
      · exact hs c hx
      · exact h c hx
    rw [h1, h2]
  · unfold pyStrip
    rw [dropWhile_append_ne_nil ws hD1, List.reverse_append,
      dropWhile_append_all_space _ (fun c hc => h c (List.mem_reverse.mp hc))]

theorem pySplit_ne_nil (sep : Nat) (s : List Nat) : pySplit sep s ≠ [] := by
  cases s with
  | nil => simp [pySplit]
  | cons c cs =>
      simp only [pySplit]
      split <;> simp

theorem pySplit_not_mem {sep : Nat} {s : List Nat} (h : sep ∉ s) : pySplit sep s = [s] := by
  induction s with
  | nil => rfl
  | cons c cs ih =>
      have hc : c ≠ sep := fun he => h (he ▸ List.mem_cons_self c cs)
      have hcs : sep ∉ cs := fun hm => h (List.mem_cons_of_mem c hm)
      simp only [pySplit, if_neg hc, ih hcs]
      rfl

theorem pySplit_append_cons {sep : Nat} {xs : List Nat} (ys : List Nat) (h : sep ∉ xs) :
    pySplit sep (xs ++ sep :: ys) = xs :: pySplit sep ys := by
  induction xs with
  | nil => simp [pySplit]
  | cons c cs ih =>
      have hc : c ≠ sep := fun he => h (he ▸ List.mem_cons_self c cs)
      have hcs : sep ∉ cs := fun hm => h (List.mem_cons_of_mem c hm)
      simp only [List.cons_append, pySplit, if_neg hc, List.append_eq, ih hcs]
      rfl

theorem not_mem_of_mem_pySplit {sep : Nat} {t s : List Nat} (h : t ∈ pySplit sep s) :
    sep ∉ t := by
  induction s generalizing t with
  | nil =>
      simp only [pySplit, List.mem_singleton] at h
      subst h
      exact List.not_mem_nil sep
  | cons c cs ih =>
      simp only [pySplit] at h
      by_cases hc : c = sep
      · rw [if_pos hc] at h
        rcases List.mem_cons.mp h with h | h
        · subst h; exact List.not_mem_nil sep
        · exact ih h
      · rw [if_neg hc] at h
        cases hsp : pySplit sep cs with
        | nil => exact absurd hsp (pySplit_ne_nil sep cs)
        | cons t0 ts0 =>
            rw [hsp] at h
            rcases List.mem_cons.mp h with h | h
            · subst h
              intro hmem
              rcases List.mem_cons.mp hmem with he | he
              · exact hc he.symm
              · exact ih (show t0 ∈ pySplit sep cs by
                  rw [hsp]; exact List.mem_cons_self t0 ts0) he
            · exact ih (show t ∈ pySplit sep cs by
                rw [hsp]; exact List.mem_cons_of_mem t0 h)

theorem mem_of_mem_pySplit {sep x : Nat} {t s : List Nat} (ht : t ∈ pySplit sep s)
    (hx : x ∈ t) : x ∈ s := by
  induction s generalizing t with
  | nil =>
      simp only [pySplit, List.mem_singleton] at ht
      subst ht
      exact absurd hx (List.not_mem_nil x)
  | cons c cs ih =>
      simp only [pySplit] at ht
      by_cases hc : c = sep
      · rw [if_pos hc] at ht
        rcases List.mem_cons.mp ht with h | h
        · subst h; exact absurd hx (List.not_mem_nil x)
        · exact List.mem_cons_of_mem c (ih h hx)
      · rw [if_neg hc] at ht
        cases hsp : pySplit sep cs with
        | nil => exact absurd hsp (pySplit_ne_nil sep cs)
        | cons t0 ts0 =>
            rw [hsp] at ht
            rcases List.mem_cons.mp ht with h | h
            · subst h
              rcases List.mem_cons.mp hx with he | he
              · exact he ▸ List.mem_cons_self c cs
              · exact List.mem_cons_of_mem c (ih (show t0 ∈ pySplit sep cs by
                  rw [hsp]; exact List.mem_cons_self t0 ts0) he)
            · exact List.mem_cons_of_mem c (ih (show t ∈ pySplit sep cs by
                rw [hsp]; exact List.mem_cons_of_mem t0 h) hx)

theorem pySplit_pyJoin {sep : Nat} : ∀ {ts : List (List Nat)}, ts ≠ [] →
    (∀ t ∈ ts, sep ∉ t) → pySplit sep (pyJoin sep ts) = ts
  | [], h, _ => absurd rfl h
  | [t], _, h2 => by
      rw [pyJoin, pySplit_not_mem (h2 t (List.mem_singleton_self t))]
  | t :: t' :: ts, _, h2 => by
      rw [pyJoin, pySplit_append_cons _ (h2 t (List.mem_cons_self _ _))]
      rw [pySplit_pyJoin (List.cons_ne_nil t' ts) fun u hu => h2 u (List.mem_cons_of_mem t hu)]

theorem mem_pyJoin {sep x : Nat} : ∀ {ts : List (List Nat)}, x ∈ pyJoin sep ts →
    x = sep ∨ ∃ t ∈ ts, x ∈ t
  | [], h => absurd h (List.not_mem_nil x)
  | [t], h => Or.inr ⟨t, List.mem_singleton_self t, h⟩
  | t :: t' :: ts, h => by
      rw [pyJoin] at h
      rcases List.mem_append.mp h with h | h
      · exact Or.inr ⟨t, List.mem_cons_self _ _, h⟩
      · rcases List.mem_cons.mp h with h | h
        · exact Or.inl h
        · rcases mem_pyJoin h with h | ⟨u, hu, hx⟩
          · exact Or.inl h
          · exact Or.inr ⟨u, List.mem_cons_of_mem t hu, hx⟩

theorem headI_pyJoin {sep : Nat} {t : List Nat} (ts : List (List Nat)) (h : t ≠ []) :
    (pyJoin sep (t :: ts)).headI = t.headI := by
  cases ts with
  | nil => rfl
  | cons t' ts => rw [pyJoin, headI_append_ne_nil _ h]

theorem pyJoin_lastI {sep : Nat} : ∀ {ts : List (List Nat)}, ts ≠ [] →
    (∀ t ∈ ts, t ≠ [] ∧ pyIsSpace (lastI t) = false) →
    pyJoin sep ts ≠ [] ∧ pyIsSpace (lastI (pyJoin sep ts)) = false
  | [], h, _ => absurd rfl h
  | [t], _, h2 => by
      rw [pyJoin]
      exact h2 t (List.mem_singleton_self t)
  | t :: t' :: ts, _, h2 => by
      rw [pyJoin]
      have ih := @pyJoin_lastI sep (t' :: ts) (List.cons_ne_nil t' ts)
        fun u hu => h2 u (List.mem_cons_of_mem t hu)
      constructor
      · simp
      · rw [lastI_append_ne_nil _ (List.cons_ne_nil sep _),
          lastI_cons_ne_nil sep ih.1]
        exact ih.2

theorem mem_dedupFirstAux {x : List Nat} :
    ∀ {l seen : List (List Nat)}, x ∈ dedupFirstAux seen l → x ∈ l := by
  intro l
  induction l with
  | nil => intro seen h; exact absurd h (List.not_mem_nil x)
  | cons t ts ih =>
      intro seen h
      rw [dedupFirstAux] at h
      by_cases hseen : t ∈ seen
      · rw [if_pos hseen] at h
        exact List.mem_cons_of_mem t (ih h)
      · rw [if_neg hseen] at h
        rcases List.mem_cons.mp h with h | h
        · exact h ▸ List.mem_cons_self t ts
        · exact List.mem_cons_of_mem t (ih h)

theorem dedupFirstAux_nodup :
    ∀ (l seen : List (List Nat)),
      (dedupFirstAux seen l).Nodup ∧ ∀ x ∈ dedupFirstAux seen l, x ∉ seen := by
  intro l
  induction l with
  | nil => intro seen; exact ⟨List.nodup_nil, by intro x h; exact absurd h (List.not_mem_nil x)⟩
  | cons t ts ih =>
      intro seen
      rw [dedupFirstAux]
      by_cases hseen : t ∈ seen
      · rw [if_pos hseen]
        exact ih seen
      · rw [if_neg hseen]
        obtain ⟨ihn, ihe⟩ := ih (t :: seen)
        constructor
        · refine List.Nodup.cons ?_ ihn
          intro hmem
          exact ihe t hmem (List.mem_cons_self t seen)
        · intro x hx
          rcases List.mem_cons.mp hx with h | h
          · exact h ▸ hseen
          · exact fun hs => ihe x h (List.mem_cons_of_mem t hs)

theorem dedupFirstAux_eq_self :
    ∀ {l seen : List (List Nat)}, l.Nodup → (∀ x ∈ l, x ∉ seen) →
      dedupFirstAux seen l = l := by
  intro l
  induction l with
  | nil => intro seen _ _; rfl
  | cons t ts ih =>
      intro seen hnd hout
      rw [dedupFirstAux, if_neg (hout t (List.mem_cons_self t ts))]
      obtain ⟨hhead, htail⟩ := List.nodup_cons.mp hnd
      rw [ih htail]
      intro x hx
      intro hmem
      rcases List.mem_cons.mp hmem with h | h
      · exact hhead (h ▸ hx)
      · exact hout x (List.mem_cons_of_mem t hx) h

theorem dedupFirst_nodup (l : List (List Nat)) : (dedupFirst l).Nodup :=
  (dedupFirstAux_nodup l []).1

theorem mem_dedupFirst {x : List Nat} {l : List (List Nat)} (h : x ∈ dedupFirst l) :
    x ∈ l :=
  mem_dedupFirstAux h

theorem dedupFirst_eq_self {l : List (List Nat)} (h : l.Nodup) : dedupFirst l = l :=
  dedupFirstAux_eq_self h (by intro x _; exact List.not_mem_nil x)

theorem strLe_total : ∀ (a b : List Nat), strLe a b = true ∨ strLe b a = true
  | [], _ => Or.inl rfl
  | _ :: _, [] => Or.inr rfl
  | a :: as, b :: bs => by
      rw [strLe, strLe]
      by_cases hab : a < b
      · exact Or.inl (by rw [if_pos hab])
      · by_cases hba : b < a
        · exact Or.inr (by rw [if_pos hba])
        · rw [if_neg hab, if_neg hba, if_neg hab, if_neg hba]
          exact strLe_total as bs

theorem strLe_trans : ∀ {a b c : List Nat},
    strLe a b = true → strLe b c = true → strLe a c = true
  | [], _, _, _, _ => rfl
  | _ :: _, [], _, h1, _ => by rw [strLe] at h1; exact absurd h1 (by simp)
  | _ :: _, _ :: _, [], _, h2 => by rw [strLe] at h2; exact absurd h2 (by simp)
  | a :: as, b :: bs, c :: cs, h1, h2 => by
      rw [strLe] at h1 h2 ⊢
      by_cases hab : a < b
      · by_cases hbc : b < c
        · rw [if_pos (by omega)]
        · rw [if_neg hbc] at h2
          by_cases hcb : c < b
          · rw [if_pos hcb] at h2; exact absurd h2 (by simp)
          · rw [if_pos (by omega)]
      · rw [if_neg hab] at h1
        by_cases hba : b < a
        · rw [if_pos hba] at h1; exact absurd h1 (by simp)
        · rw [if_neg hba] at h1
          have hEq : a = b := by omega
          subst hEq
          by_cases hac : a < c
          · rw [if_pos hac]
          · rw [if_neg hac] at h2 ⊢
            by_cases hca : c < a
            · rw [if_pos hca] at h2; exact absurd h2 (by simp)
            · rw [if_neg hca] at h2 ⊢
              exact strLe_trans h1 h2

instance : IsTotal (List Nat) StrLe := ⟨fun a b => strLe_total a b⟩

instance : IsTrans (List Nat) StrLe := ⟨fun _ _ _ h1 h2 => strLe_trans h1 h2⟩

theorem map_id_of_mem {f : List Nat → List Nat} :
    ∀ {l : List (List Nat)}, (∀ x ∈ l, f x = x) → l.map f = l := by
  intro l
  induction l with
  | nil => intro _; rfl
  | cons t ts ih =>
      intro h
      rw [List.map_cons, h t (List.mem_cons_self t ts),
        ih fun x hx => h x (List.mem_cons_of_mem t hx)]

theorem headI_pyLower {s : List Nat} (h : s ≠ []) :
    (pyLower s).headI = pyToLower s.headI := by
  cases s with
  | nil => exact absurd rfl h
  | cons c cs => rfl

theorem lastI_pyLower {s : List Nat} (h : s ≠ []) :
    lastI (pyLower s) = pyToLower (lastI s) := by
  unfold lastI pyLower
  rw [← List.map_reverse]
  exact headI_pyLower (by simpa using h)

theorem mem_pyLower {c : Nat} {s : List Nat} (h : c ∈ pyLower s) :
    ∃ d ∈ s, c = pyToLower d := by
  obtain ⟨d, hd, he⟩ := List.mem_map.mp h
  exact ⟨d, hd, he.symm⟩

theorem pyLower_idem (s : List Nat) : pyLower (pyLower s) = pyLower s := by
  unfold pyLower
  rw [List.map_map]
  exact List.map_congr_left fun c _ => pyToLower_pyToLower c

theorem mem_tagPipeline {x : List Nat} {t : List Nat} (h : x ∈ tagPipeline t) :
    x ≠ [] ∧ ∃ u ∈ pySplit commaCh t, x = pyLower (pyStrip u) := by
  unfold tagPipeline at h
  rw [List.mem_insertionSort] at h
  have h2 := mem_dedupFirst h
  obtain ⟨hmap, hne⟩ := List.mem_filter.mp h2
  refine ⟨of_decide_eq_true hne, ?_⟩
  obtain ⟨u, hu, he⟩ := List.mem_map.mp hmap
  exact ⟨u, hu, he.symm⟩

theorem tagPipeline_sorted (t : List Nat) : List.Sorted StrLe (tagPipeline t) :=
  List.sorted_insertionSort StrLe _

theorem tagPipeline_nodup (t : List Nat) : (tagPipeline t).Nodup :=
  (List.perm_insertionSort StrLe _).nodup_iff.mpr
    (dedupFirst_nodup _)

theorem tagPipeline_props {x : List Nat} {t : List Nat} (h : x ∈ tagPipeline t) :
    x ≠ [] ∧ commaCh ∉ x ∧ pyStrip x = x ∧ pyLower x = x ∧
      ∀ c ∈ x, ∃ d ∈ t, c = pyToLower d := by
  obtain ⟨hne, u, hu, hx⟩ := mem_tagPipeline h
  have hsne : pyStrip u ≠ [] := by
    intro hnil
    rw [hx, hnil] at hne
    exact hne rfl
  have hchars : ∀ c ∈ x, ∃ d ∈ t, c = pyToLower d := by
    intro c hc
    rw [hx] at hc
    obtain ⟨d, hd, he⟩ := mem_pyLower hc
    exact ⟨d, mem_of_mem_pySplit hu (mem_pyStrip hd), he⟩
  refine ⟨hne, ?_, ?_, ?_, hchars⟩
  · intro hmem
    obtain ⟨d, hd, he⟩ := hchars commaCh hmem
    have : d = commaCh := pyToLower_eq_commaCh he.symm
    rw [hx] at hmem
    obtain ⟨d', hd', he'⟩ := mem_pyLower hmem
    have hd'' : d' = commaCh := pyToLower_eq_commaCh he'.symm
    exact not_mem_of_mem_pySplit hu (hd'' ▸ mem_pyStrip hd')
  · rw [hx]
    refine pyStrip_eq_self ?_ ?_
    · rw [headI_pyLower hsne, pyIsSpace_pyToLower]
      exact pyStrip_headI hsne
    · rw [lastI_pyLower hsne, pyIsSpace_pyToLower]
      exact pyStrip_lastI hsne
  · rw [hx, pyLower_idem]

theorem normalizeTags_nil : normalizeTags [] = [] := rfl

theorem normalizeTags_cases (t : List Nat) :
    normalizeTags t = [] ∨
      (tagPipeline t ≠ [] ∧ normalizeTags t = pyJoin commaCh (tagPipeline t)) := by
  unfold normalizeTags
  by_cases h : pyStrip t = []
  · rw [if_pos h]
    exact Or.inl rfl
  · rw [if_neg h]
    cases hp : tagPipeline t with
    | nil => exact Or.inl rfl
    | cons a l => exact Or.inr ⟨by simp, rfl⟩

theorem normalizeTags_ends (t : List Nat) (h : normalizeTags t ≠ []) :
    pyIsSpace (normalizeTags t).headI = false ∧
      pyIsSpace (lastI (normalizeTags t)) = false := by
  rcases normalizeTags_cases t with hc | ⟨hne, he⟩
  · exact absurd hc h
  · have hall : ∀ u ∈ tagPipeline t, u ≠ [] ∧ pyIsSpace (lastI u) = false := by
      intro u hu
      have hp2 := tagPipeline_props hu
      refine ⟨hp2.1, ?_⟩
      rw [← hp2.2.2.1]
      exact pyStrip_lastI (by rw [hp2.2.2.1]; exact hp2.1)
    have hjoin := @pyJoin_lastI commaCh (tagPipeline t) hne hall
    constructor
    · rw [he]
      cases hp : tagPipeline t with
      | nil => exact absurd hp hne
      | cons t0 rest =>
          have h0 := tagPipeline_props (show t0 ∈ tagPipeline t by
            rw [hp]; exact List.mem_cons_self t0 rest)
          rw [headI_pyJoin rest h0.1, ← h0.2.2.1]
          exact pyStrip_headI (by rw [h0.2.2.1]; exact h0.1)
    · rw [he]
      exact hjoin.2

theorem normalizeTags_strip (t : List Nat) :
    pyStrip (normalizeTags t) = normalizeTags t := by
  by_cases h : normalizeTags t = []
  · rw [h, pyStrip_nil]
  · obtain ⟨h1, h2⟩ := normalizeTags_ends t h
    exact pyStrip_eq_self h1 h2

theorem normalizeTags_split (t : List Nat) (h : normalizeTags t ≠ []) :
    pySplit commaCh (normalizeTags t) = tagPipeline t := by
  rcases normalizeTags_cases t with hc | ⟨hne, he⟩
  · exact absurd hc h
  · rw [he]
    exact pySplit_pyJoin hne fun u hu => (tagPipeline_props hu).2.1

theorem tagPipeline_normalizeTags (t : List Nat) (h : normalizeTags t ≠ []) :
    tagPipeline (normalizeTags t) = tagPipeline t := by
  have h2 : (tagPipeline t).map (fun u => pyLower (pyStrip u)) = tagPipeline t :=
    map_id_of_mem fun x hx => by
      have hp := tagPipeline_props hx
      rw [hp.2.2.1, hp.2.2.2.1]
  have h3 : (tagPipeline t).filter (fun u => u ≠ []) = tagPipeline t :=
    List.filter_eq_self.mpr fun x hx => decide_eq_true (tagPipeline_props hx).1
  show List.insertionSort StrLe
      (dedupFirst
        (((pySplit commaCh (normalizeTags t)).map (fun u => pyLower (pyStrip u))).filter
          (fun u => u ≠ []))) = tagPipeline t
  rw [normalizeTags_split t h, h2, h3, dedupFirst_eq_self (tagPipeline_nodup t),
    (tagPipeline_sorted t).insertionSort_eq]

theorem normalizeTags_idem (t : List Nat) :
    normalizeTags (normalizeTags t) = normalizeTags t := by
  by_cases hN : normalizeTags t = []
  · rw [hN, normalizeTags_nil]
  · rw [show normalizeTags (normalizeTags t) =
        if pyStrip (normalizeTags t) = [] then []
        else pyJoin commaCh (tagPipeline (normalizeTags t)) from rfl]
    rw [normalizeTags_strip t, if_neg hN, tagPipeline_normalizeTags t hN]
    rcases normalizeTags_cases t with hc | ⟨_, he⟩
    · exact absurd hc hN
    · exact he.symm

theorem pipeCh_not_mem_normalizeTags {t : List Nat} (h : pipeCh ∉ t) :
    pipeCh ∉ normalizeTags t := by
  intro hmem
  rcases normalizeTags_cases t with hc | ⟨_, he⟩
  · rw [hc] at hmem
    exact List.not_mem_nil _ hmem
  · rw [he] at hmem
    rcases mem_pyJoin hmem with heq | ⟨u, hu, hx⟩
    · exact absurd heq (by decide)
    · obtain ⟨d, hd, hde⟩ := (tagPipeline_props hu).2.2.2.2 pipeCh hx
      exact h (pyToLower_eq_pipeCh hde.symm ▸ hd)

theorem construct_eq_none_iff (n u d t : List Nat) :
    Bookmark.construct n u d t = none ↔ pipeCh ∈ n := by
  unfold Bookmark.construct normalizeName
  by_cases h : pipeCh ∈ n
  · rw [if_pos h]
    simp [h]
  · rw [if_neg h]
    simp [h]

theorem construct_eq_some {n : List Nat} (u d t : List Nat) (h : pipeCh ∉ n) :
    Bookmark.construct n u d t =
      some ⟨pyTitle n, u, d, normalizeTags t⟩ := by
  unfold Bookmark.construct normalizeName
  rw [if_neg h]

theorem construct_some_inv {n u d t : List Nat} {b : Bookmark}
    (h : Bookmark.construct n u d t = some b) :
    pipeCh ∉ n ∧ b = ⟨pyTitle n, u, d, normalizeTags t⟩ := by
  by_cases hp : pipeCh ∈ n
  · rw [(construct_eq_none_iff n u d t).mpr hp] at h
    exact absurd h (by simp)
  · rw [construct_eq_some u d t hp] at h
    exact ⟨hp, (Option.some_injective _ h).symm⟩

theorem headI_to_line (b : Bookmark) :
    b.to_line.headI = if b.name = [] then pipeCh else b.name.headI := by
  unfold Bookmark.to_line
  cases hn : b.name with
  | nil => rfl
  | cons c cs => rw [if_neg (by simp), List.cons_append]; rfl

theorem lastI_to_line (b : Bookmark) :
    lastI b.to_line = if b.tags = [] then pipeCh else lastI b.tags := by
  unfold Bookmark.to_line
  rw [lastI_append_ne_nil _ (by simp), lastI_cons_ne_nil _ (by simp),
    lastI_append_ne_nil _ (by simp), lastI_cons_ne_nil _ (by simp),
    lastI_append_ne_nil _ (by simp)]
  cases ht : b.tags with
  | nil => rfl
  | cons c cs => rw [if_neg (by simp), lastI_cons_ne_nil _ (by simp)]

theorem pyStrip_to_line (b : Bookmark) (hname : pyIsSpace b.name.headI = false)
    (htags : b.tags ≠ [] → pyIsSpace (lastI b.tags) = false) :
    pyStrip b.to_line = b.to_line := by
  apply pyStrip_eq_self
  · rw [headI_to_line]
    by_cases hn : b.name = []
    · rw [if_pos hn]
      exact pyIsSpace_pipeCh
    · rw [if_neg hn]
      exact hname
  · rw [lastI_to_line]
    by_cases ht : b.tags = []
    · rw [if_pos ht]
      exact pyIsSpace_pipeCh
    · rw [if_neg ht]
      exact htags ht

theorem pySplit_to_line (b : Bookmark) (hn : pipeCh ∉ b.name) (hu : pipeCh ∉ b.url)
    (hd : pipeCh ∉ b.description) (ht : pipeCh ∉ b.tags) :
    pySplit pipeCh b.to_line = [b.name, b.url, b.description, b.tags] := by
  unfold Bookmark.to_line
  rw [pySplit_append_cons _ hn, pySplit_append_cons _ hu, pySplit_append_cons _ hd,
    pySplit_not_mem ht]

theorem from_line_of_split {line : List Nat} {a b c d : List Nat}
    (h : pySplit pipeCh (pyStrip line) = [a, b, c, d]) :
    Bookmark.from_line line = Bookmark.construct a b c d := by
  unfold Bookmark.from_line
  rw [h]

theorem from_line_to_line {n u d t : List Nat} {b : Bookmark}
    (hu : pipeCh ∉ u) (hd : pipeCh ∉ d) (ht : pipeCh ∉ t)
    (hn : pyIsSpace n.headI = false)
    (hb : Bookmark.construct n u d t = some b) :
    Bookmark.from_line b.to_line = some b := by
  obtain ⟨hnp, rfl⟩ := construct_some_inv hb
  have hpn : pipeCh ∉ pyTitle n := pipeCh_not_mem_pyTitle hnp
  have hpt : pipeCh ∉ normalizeTags t := pipeCh_not_mem_normalizeTags ht
  have hstrip : pyStrip (Bookmark.to_line ⟨pyTitle n, u, d, normalizeTags t⟩) =
      Bookmark.to_line ⟨pyTitle n, u, d, normalizeTags t⟩ := by
    apply pyStrip_to_line
    · show pyIsSpace (pyTitle n).headI = false
      rw [pyIsSpace_headI_pyTitle]
      exact hn
    · intro hne
      exact (normalizeTags_ends t hne).2
  have hsplit : pySplit pipeCh
      (pyStrip (Bookmark.to_line ⟨pyTitle n, u, d, normalizeTags t⟩)) =
      [pyTitle n, u, d, normalizeTags t] := by
    rw [hstrip]
    exact pySplit_to_line _ hpn hu hd hpt
  rw [from_line_of_split hsplit, construct_eq_some u d (normalizeTags t) hpn,
    pyTitle_idem, normalizeTags_idem]

theorem from_line_eq (line : List Nat) :
    (∃ a b c d, pySplit pipeCh (pyStrip line) = [a, b, c, d] ∧
      Bookmark.from_line line = Bookmark.construct a b c d) ∨
    ((pySplit pipeCh (pyStrip line)).length ≠ 4 ∧ Bookmark.from_line line = none) := by
  unfold Bookmark.from_line
  cases h : pySplit pipeCh (pyStrip line) with
  | nil => exact Or.inr ⟨by simp, rfl⟩
  | cons a l1 =>
      cases l1 with
      | nil => exact Or.inr ⟨by simp, rfl⟩
      | cons b l2 =>
          cases l2 with
          | nil => exact Or.inr ⟨by simp, rfl⟩
          | cons c l3 =>
              cases l3 with
              | nil => exact Or.inr ⟨by simp, rfl⟩
              | cons d l4 =>
                  cases l4 with
                  | nil => exact Or.inl ⟨a, b, c, d, rfl, rfl⟩
                  | cons e l5 =>
                      refine Or.inr ⟨?_, rfl⟩
                      simp only [List.length_cons]
                      omega

theorem from_line_none_iff (line : List Nat) :
    Bookmark.from_line line = none ↔ (pySplit pipeCh (pyStrip line)).length ≠ 4 := by
  rcases from_line_eq line with ⟨a, b, c, d, hsp, he⟩ | ⟨hlen, he⟩
  · have hna : pipeCh ∉ a :=
      not_mem_of_mem_pySplit (show a ∈ pySplit pipeCh (pyStrip line) by
        rw [hsp]; exact List.mem_cons_self _ _)
    rw [he, construct_eq_some b c d hna, hsp]
    simp
  · rw [he]
    simp [hlen]

theorem from_line_some_inv {line : List Nat} {b : Bookmark}
    (h : Bookmark.from_line line = some b) :
    ∃ n u d t, Bookmark.construct n u d t = some b := by
  rcases from_line_eq line with ⟨n, u, d, t, _, he⟩ | ⟨_, he⟩
  · exact ⟨n, u, d, t, he ▸ h⟩
  · rw [he] at h
    exact absurd h (by simp)

theorem from_line_pyStrip (s : List Nat) :
    Bookmark.from_line (pyStrip s) = Bookmark.from_line s := by
  unfold Bookmark.from_line
  rw [pyStrip_idem]

theorem from_line_of_strip_nil {s : List Nat} (h : pyStrip s = []) :
    Bookmark.from_line s = none := by
  unfold Bookmark.from_line
  rw [h]
  rfl

theorem read_bookmarks_some (content : List Nat) :
    read_bookmarks (some content) =
      (pySplit nlCh content).filterMap Bookmark.from_line := by
  unfold read_bookmarks
  refine List.filterMap_congr fun raw _ => ?_
  show (if pyStrip raw = [] then none else Bookmark.from_line (pyStrip raw)) =
    Bookmark.from_line raw
  by_cases h : pyStrip raw = []
  · rw [if_pos h, from_line_of_strip_nil h]
  · rw [if_neg h, from_line_pyStrip]

theorem joinLines_append (xs ys : List (List Nat)) :
    joinLines (xs ++ ys) = joinLines xs ++ joinLines ys := by
  induction xs with
  | nil => rfl
  | cons l ls ih =>
      show l ++ (nlCh :: joinLines (ls ++ ys)) = (l ++ (nlCh :: joinLines ls)) ++ joinLines ys
      rw [ih, List.append_assoc, List.cons_append]

theorem pySplit_joinLines :
    ∀ {ls : List (List Nat)}, (∀ l ∈ ls, nlCh ∉ l) → ∀ (rest : List Nat),
      pySplit nlCh (joinLines ls ++ rest) = ls ++ pySplit nlCh rest := by
  intro ls
  induction ls with
  | nil => intro _ rest; rw [show joinLines [] = [] from rfl, List.nil_append, List.nil_append]
  | cons l ls ih =>
      intro h rest
      show pySplit nlCh ((l ++ (nlCh :: joinLines ls)) ++ rest) = _
      rw [List.append_assoc, List.cons_append,
        pySplit_append_cons _ (h l (List.mem_cons_self l ls)),
        ih (fun x hx => h x (List.mem_cons_of_mem l hx)) rest]
      rfl

theorem displayValue_eq (b : Bookmark) (f : List Nat) :
    (b.fieldMap.lookup f).getD [] = specFieldValue b f := by
  unfold Bookmark.fieldMap specFieldValue
  by_cases h1 : f = pyStr "name"
  · subst h1
    rfl
  · rw [if_neg h1]
    by_cases h2 : f = pyStr "url"
    · subst h2
      rfl
    · rw [if_neg h2]
      by_cases h3 : f = pyStr "description"
      · subst h3
        rfl
      · rw [if_neg h3]
        by_cases h4 : f = pyStr "tags"
        · subst h4
          rfl
        · rw [if_neg h4]
          simp only [List.lookup, beq_eq_false_iff_ne.mpr h1,
            beq_eq_false_iff_ne.mpr h2, beq_eq_false_iff_ne.mpr h3,
            beq_eq_false_iff_ne.mpr h4]
          rfl

theorem construct_invariant {n u d t : List Nat} {b : Bookmark}
    (h : Bookmark.construct n u d t = some b) :
    pipeCh ∉ b.name ∧ (pySplit commaCh b.tags).Nodup ∧
      List.Sorted StrLe (pySplit commaCh b.tags) := by
  obtain ⟨hnp, rfl⟩ := construct_some_inv h
  refine ⟨pipeCh_not_mem_pyTitle hnp, ?_, ?_⟩
  · show (pySplit commaCh (normalizeTags t)).Nodup
    by_cases hN : normalizeTags t = []
    · rw [hN]
      decide
    · rw [normalizeTags_split t hN]
      exact tagPipeline_nodup t
  · show List.Sorted StrLe (pySplit commaCh (normalizeTags t))
    by_cases hN : normalizeTags t = []
    · rw [hN]
      exact List.sorted_singleton []
    · rw [normalizeTags_split t hN]
      exact tagPipeline_sorted t

/-- C1 as frozen is false on the code: it quantifies over all `url`,
`description` and `tags`, but a pipe embedded in `url` makes the
serialized line split into five fields, so parsing it back fails; and a
name with leading whitespace survives construction but is eaten by the
strip in `from_line`, so the reparsed record differs. Both failures at
explicit concrete inputs. -/
theorem c1_roundtrip_counterexample :
    ((Bookmark.construct (pyStr "A") (pyStr "b|c") (pyStr "") (pyStr "")).bind
        (fun b => Bookmark.from_line b.to_line) = none ∧
      Bookmark.construct (pyStr "A") (pyStr "b|c") (pyStr "") (pyStr "") ≠ none) ∧
    ((Bookmark.construct (pyStr " a") (pyStr "u") (pyStr "") (pyStr "")).bind
        (fun b => Bookmark.from_line b.to_line) ≠
      Bookmark.construct (pyStr " a") (pyStr "u") (pyStr "") (pyStr "")) ∧
    Bookmark.construct (pyStr " a") (pyStr "u") (pyStr "") (pyStr "") ≠ none := by
  decide

/-- C1 amended: when `name` contains no pipe and does not begin with
whitespace, and `url`, `description` and `tags` contain no pipe,
constructing then serializing with `to_line` then parsing with
`from_line` returns exactly the constructed record. -/
theorem c1_roundtrip_amended (n u d t : List Nat) (b : Bookmark)
    (hu : pipeCh ∉ u) (hd : pipeCh ∉ d) (ht : pipeCh ∉ t)
    (hn : pyIsSpace n.headI = false)
    (hb : Bookmark.construct n u d t = some b) :
    Bookmark.from_line b.to_line = some b :=
  from_line_to_line hu hd ht hn hb

theorem c1_roundtrip_witness :
    Bookmark.from_line
        (Bookmark.to_line ⟨pyStr "My Site", pyStr "https://e.com", pyStr "d", pyStr "a,b"⟩) =
      some ⟨pyStr "My Site", pyStr "https://e.com", pyStr "d", pyStr "a,b"⟩ :=
  c1_roundtrip_amended (pyStr "my site") (pyStr "https://e.com") (pyStr "d") (pyStr "b, a")
    ⟨pyStr "My Site", pyStr "https://e.com", pyStr "d", pyStr "a,b"⟩
    (by decide) (by decide) (by decide) (by decide) (by decide)

/-- C2: construction fails exactly when the name contains a pipe, and on
success the stored `url` and `description` are the inputs unchanged. -/
theorem c2_construct_validation : ∀ n u d t : List Nat,
    (Bookmark.construct n u d t = none ↔ pipeCh ∈ n) ∧
    (∀ b, Bookmark.construct n u d t = some b → b.url = u ∧ b.description = d) :=
  fun n u d t =>
    ⟨construct_eq_none_iff n u d t, fun _ h => by
      obtain ⟨_, rfl⟩ := construct_some_inv h
      exact ⟨rfl, rfl⟩⟩

theorem c2_construct_validation_witness :
    Bookmark.construct (pyStr "a|b") (pyStr "u") (pyStr "") (pyStr "") = none ∧
    (Bookmark.mk (pyStr "X Y") (pyStr "u") (pyStr "") (pyStr "")).url = pyStr "u" ∧
    (Bookmark.mk (pyStr "X Y") (pyStr "u") (pyStr "") (pyStr "")).description = pyStr "" :=
  ⟨(c2_construct_validation (pyStr "a|b") (pyStr "u") (pyStr "") (pyStr "")).1.mpr (by decide),
    ((c2_construct_validation (pyStr "x y") (pyStr "u") (pyStr "") (pyStr "")).2
      (Bookmark.mk (pyStr "X Y") (pyStr "u") (pyStr "") (pyStr "")) (by decide)).1,
    ((c2_construct_validation (pyStr "x y") (pyStr "u") (pyStr "") (pyStr "")).2
      (Bookmark.mk (pyStr "X Y") (pyStr "u") (pyStr "") (pyStr "")) (by decide)).2⟩

/-- C3: parsing fails exactly when the stripped line does not split into
four pipe-separated parts; two fields fail, five fields fail, four
fields succeed. -/
theorem c3_from_line_field_count :
    (∀ line, Bookmark.from_line line = none ↔
      (pySplit pipeCh (pyStrip line)).length ≠ 4) ∧
    Bookmark.from_line (pyStr "A|B") = none ∧
    Bookmark.from_line (pyStr "A|B|C|D|E") = none ∧
    Bookmark.from_line (pyStr "A|B|C|D") ≠ none :=
  ⟨from_line_none_iff, by decide, by decide, by decide⟩

/-- C4: the constructor's tag normalization agrees with the reference
pipeline (split on comma, strip, lowercase, drop empties, deduplicate,
sort, rejoin) on every input, and normalizes the spec's example
accordingly. -/
theorem c4_normalize_tags_reference :
    (∀ tags, normalizeTags tags = specNormalizeTags tags) ∧
    normalizeTags (pyStr " Testing , WEB , Code ") = pyStr "code,testing,web" := by
  refine ⟨fun tags => ?_, by decide⟩
  unfold normalizeTags
  by_cases h : pyStrip tags = []
  · rw [if_pos h]
    have hsp : ∀ c ∈ tags, pyIsSpace c = true := pyStrip_eq_nil_iff.mp h
    have hcm : commaCh ∉ tags := fun hm => absurd (hsp commaCh hm) (by decide)
    symm
    unfold specNormalizeTags
    rw [pySplit_not_mem hcm, List.map_cons, List.map_nil, h]
    rfl
  · rw [if_neg h]
    rfl

/-- C5: normalizing a tags string twice gives the same result as
normalizing it once. -/
theorem c5_normalize_tags_idempotent :
    ∀ tags, normalizeTags (normalizeTags tags) = normalizeTags tags :=
  normalizeTags_idem

/-- C6: every record that construction or parsing accepts has a
pipe-free name and a tags string whose comma-separated entries are
duplicate-free and lexicographically sorted. -/
theorem c6_record_invariant :
    (∀ n u d t b, Bookmark.construct n u d t = some b →
      pipeCh ∉ b.name ∧ (pySplit commaCh b.tags).Nodup ∧
        List.Sorted StrLe (pySplit commaCh b.tags)) ∧
    (∀ line b, Bookmark.from_line line = some b →
      pipeCh ∉ b.name ∧ (pySplit commaCh b.tags).Nodup ∧
        List.Sorted StrLe (pySplit commaCh b.tags)) :=
  ⟨fun _ _ _ _ _ h => construct_invariant h, fun _ b h => by
    obtain ⟨n, u, d, t, hc⟩ := from_line_some_inv h
    exact construct_invariant hc⟩

theorem c6_record_invariant_witness :
    pipeCh ∉ (Bookmark.mk (pyStr "X") (pyStr "u") (pyStr "") (pyStr "b,c")).name ∧
    (pySplit commaCh (Bookmark.mk (pyStr "X") (pyStr "u") (pyStr "") (pyStr "b,c")).tags).Nodup ∧
    List.Sorted StrLe
      (pySplit commaCh (Bookmark.mk (pyStr "X") (pyStr "u") (pyStr "") (pyStr "b,c")).tags) :=
  c6_record_invariant.1 (pyStr "x") (pyStr "u") (pyStr "") (pyStr "c,b")
    (Bookmark.mk (pyStr "X") (pyStr "u") (pyStr "") (pyStr "b,c")) (by decide)

/-- C7: a missing file reads as the empty list; otherwise the reader
returns, in file order, exactly the records of the lines `from_line`
accepts, skipping blank and malformed lines; the spec's example file of
one good, one blank and one malformed line yields exactly one record. -/
theorem c7_read_bookmarks :
    read_bookmarks none = [] ∧
    (∀ content, read_bookmarks (some content) =
      (pySplit nlCh content).filterMap Bookmark.from_line) ∧
    read_bookmarks (some (pyStr "A|b|c|d\n\nbad|line\n")) =
      [⟨pyStr "A", pyStr "b", pyStr "c", pyStr "d"⟩] :=
  ⟨rfl, read_bookmarks_some, by decide⟩

/-- C8: appending writes exactly the serialized line plus a newline
after the unchanged previous content, and never deduplicates: adding the
same record twice to a well-formed file adds two lines, hence two more
records on the next read. -/
theorem c8_add_bookmark_append :
    (∀ file b, add_bookmark file b = (file.getD []) ++ (b.to_line ++ [nlCh])) ∧
    (∀ (ls : List (List Nat)) (b : Bookmark),
      (∀ l ∈ ls, nlCh ∉ l) → nlCh ∉ b.to_line →
      Bookmark.from_line b.to_line = some b →
      read_bookmarks (some (add_bookmark (some (add_bookmark (some (joinLines ls)) b)) b)) =
        read_bookmarks (some (joinLines ls)) ++ [b, b]) := by
  constructor
  · intro file b
    unfold add_bookmark
    rw [List.append_assoc]
  · intro ls b hls hnl hrt
    have hall : ∀ l ∈ ls ++ [b.to_line, b.to_line], nlCh ∉ l := by
      intro l hl
      rcases List.mem_append.mp hl with h | h
      · exact hls l h
      · rcases List.mem_cons.mp h with h | h
        · exact h ▸ hnl
        · rcases List.mem_cons.mp h with h | h
          · exact h ▸ hnl
          · exact absurd h (List.not_mem_nil l)
    have hcontent : add_bookmark (some (add_bookmark (some (joinLines ls)) b)) b =
        joinLines (ls ++ [b.to_line, b.to_line]) := by
      unfold add_bookmark
      rw [joinLines_append]
      simp [joinLines, List.append_assoc]
    have h1 : pySplit nlCh (joinLines (ls ++ [b.to_line, b.to_line])) =
        (ls ++ [b.to_line, b.to_line]) ++ [[]] := by
      have h2 := pySplit_joinLines hall []
      rwa [List.append_nil] at h2
    have h3 : pySplit nlCh (joinLines ls) = ls ++ [[]] := by
      have h4 := pySplit_joinLines hls []
      rwa [List.append_nil] at h4
    rw [hcontent, read_bookmarks_some, read_bookmarks_some, h1, h3,
      List.filterMap_append, List.filterMap_append, List.filterMap_append]
    simp [List.filterMap_cons, hrt, show Bookmark.from_line [] = none from rfl]

theorem c8_add_bookmark_append_witness :
    read_bookmarks (some (add_bookmark (some (add_bookmark (some (joinLines []))
        (Bookmark.mk (pyStr "A") (pyStr "u") (pyStr "") (pyStr ""))))
        (Bookmark.mk (pyStr "A") (pyStr "u") (pyStr "") (pyStr "")))) =
      read_bookmarks (some (joinLines [])) ++
        [Bookmark.mk (pyStr "A") (pyStr "u") (pyStr "") (pyStr ""),
          Bookmark.mk (pyStr "A") (pyStr "u") (pyStr "") (pyStr "")] :=
  c8_add_bookmark_append.2 [] (Bookmark.mk (pyStr "A") (pyStr "u") (pyStr "") (pyStr ""))
    (fun l hl => absurd hl (List.not_mem_nil l)) (by decide) (by decide)

/-- C9: display formatting pipe-joins, in order, the value of each
requested field, where recognized names select the record's field and
any other name contributes an empty string; on a record named
"Test Site" with url "https://test.com" the field list
[name, bogus, url] renders as "Test Site||https://test.com". -/
theorem c9_matches_display_format :
    (∀ (b : Bookmark) (fields : List (List Nat)),
      b.matches_display_format fields =
        pyJoin pipeCh (fields.map (specFieldValue b))) ∧
    (Bookmark.construct (pyStr "Test Site") (pyStr "https://test.com")
        (pyStr "") (pyStr "")).map
      (fun b => b.matches_display_format [pyStr "name", pyStr "bogus", pyStr "url"]) =
      some (pyStr "Test Site||https://test.com") := by
  refine ⟨fun b fields => ?_, by decide⟩
  unfold Bookmark.matches_display_format
  rw [List.map_congr_left fun f _ => displayValue_eq b f]

/-- C10: `from_line` strips the input itself, so surrounding a line with
whitespace never changes the outcome of parsing: it succeeds or fails
exactly as on the bare line, with the same record when it succeeds. -/
theorem c10_from_line_strips :
    ∀ (s ws1 ws2 : List Nat), (∀ c ∈ ws1, pyIsSpace c = true) →
      (∀ c ∈ ws2, pyIsSpace c = true) →
      Bookmark.from_line (ws1 ++ s ++ ws2) = Bookmark.from_line s := by
  intro s ws1 ws2 h1 h2
  unfold Bookmark.from_line
  rw [pyStrip_space_append (ws1 ++ s) h2, pyStrip_append_space s h1]

theorem c10_from_line_strips_witness :
    Bookmark.from_line (pyStr " " ++ pyStr "A|B|C|D" ++ pyStr "\n") =
      Bookmark.from_line (pyStr "A|B|C|D") :=
  c10_from_line_strips (pyStr "A|B|C|D") (pyStr " ") (pyStr "\n")
    (by decide) (by decide)

/-- Sanity check of the title-case model on the spec's example. -/
theorem pyTitle_example : pyTitle (pyStr "my test site") = pyStr "My Test Site" := by
  decide
